import Mathlib

/-!
Verification of the tender-document processing repository.

The worker pipeline (chunker, extraction validation, deduplicator,
orchestrator) is specified in `src/worker.md` but its executable code is
not part of the repository snapshot, so those components are modelled
here from the specification text.  The Next.js frontend helpers
(`statusIndex` in `step-indicator.tsx`, `rewrites` in `next.config.mjs`)
are embedded directly from their TypeScript/JavaScript sources.
-/

/- ## Chunker -/

/-- Modelled from the spec: error taxonomy of `chunk` (worker.md §Chunking,
spec §4.2): `InvalidWindow` is raised when `overlap >= window` or
`window <= 0`. -/
inductive ChunkError where
  | invalidWindow
deriving DecidableEq

/-- Modelled from the spec: the chunking loop of worker.md §1.2 / spec §4.2.
Starting index 1, each chunk spans `[start, min(start+window-1, last_page)]`;
next start is `current_end - overlap + 1`; the loop terminates when
`current_end = last_page`.  The `fuel` argument is a termination bound only:
`chunk` below supplies `P + 1`, which is never exhausted when
`overlap < window` (each step advances `start` by at least one). -/
def chunkLoop : ℕ → ℕ → ℕ → ℕ → ℕ → List (ℕ × ℕ)
  | 0, _, _, _, _ => []
  | fuel + 1, P, W, O, start =>
    if min (start + W - 1) P = P then
      [(start, min (start + W - 1) P)]
    else
      (start, min (start + W - 1) P) :: chunkLoop fuel P W O (min (start + W - 1) P + 1 - O)

/-- Modelled from the spec: `chunk(pages, window, overlap)` (spec §4.2).
Pages are abstracted by their count `P`; a chunk is the pair
`(page_start, page_end)`.  Fails with `InvalidWindow` when
`overlap >= window` or `window <= 0`, otherwise runs the sliding-window
loop from page 1. -/
def chunk (P W O : ℕ) : Except ChunkError (List (ℕ × ℕ)) :=
  if W = 0 ∨ W ≤ O then .error .invalidWindow
  else .ok (chunkLoop (P + 1) P W O 1)

/- ## Frontend: step indicator (src/apps/web/app/_components/ui/step-indicator.tsx) -/

/-- JavaScript `String.prototype.toUpperCase` for the ASCII statuses used
here: uppercase the string character by character. -/
def toUpperStr (s : String) : String :=
  String.mk (s.data.map Char.toUpper)

/-- JavaScript `String.prototype.toLowerCase` for the ASCII schemes used
here: lowercase the string character by character. -/
def toLowerStr (s : String) : String :=
  String.mk (s.data.map Char.toLower)

/-- The `ORDER` array of the `StepIndicator` component. -/
def ORDER : List String := ["DRAFT", "UPLOADING", "PROCESSING", "READY", "FAILED"]

/-- JavaScript `Array.prototype.indexOf` on a list of strings: the first
index whose element equals `x`, or `-1` when there is none. -/
def jsIndexOf (l : List String) (x : String) : Int :=
  match l.findIdx? (fun y => y == x) with
  | some i => (i : Int)
  | none => -1

/-- `statusIndex` from `step-indicator.tsx`: uppercase the status, look it
up in `ORDER`, and fall back to index 0 when the lookup yields `-1`.
`(s || "")` in the source only guards the empty string, which uppercases
to itself, so it is the identity here. -/
def statusIndex (s : String) : Int :=
  if 0 ≤ jsIndexOf ORDER (toUpperStr s) then jsIndexOf ORDER (toUpperStr s) else 0

/- ## Frontend: next.config.mjs rewrites (src/unnamed/part_000) -/

/-- One Next.js rewrite rule. -/
structure Rewrite where
  source : String
  destination : String
deriving DecidableEq

/-- JavaScript `a || b` where `a` is `process.env.X` (a string or
`undefined`): `undefined` and the empty string are falsy. -/
def jsOrEnv (a : Option String) (b : String) : String :=
  match a with
  | none => b
  | some v => if v = "" then b else v

/-- `raw.replace(/\/+$/, "")`: remove every trailing slash. -/
def stripTrail (s : String) : String :=
  String.mk (((s.data.reverse).dropWhile (fun c => c == '/')).reverse)

/-- The test `/^https?:\/\//i.test(stripped)`: a case-insensitive check
for an `http://` or `https://` scheme prefix. -/
def startsHttp (s : String) : Bool :=
  List.isPrefixOf "http://".data (toLowerStr s).data ||
    List.isPrefixOf "https://".data (toLowerStr s).data

/-- The `base` computed by `rewrites()`: prepend `https://` unless the
value already carries an `http(s)://` scheme. -/
def httpBase (s : String) : String :=
  if startsHttp s then s else "https://" ++ s

/-- The `rewrites()` function of `next.config.mjs`: choose
`API_BASE || NEXT_PUBLIC_API_BASE || ""`, strip trailing slashes, return
no rules when the result is empty, otherwise proxy `/api/:path*` and
`/upstream/:path*` to `${base}/api/:path*`. -/
def rewrites (apiBase npApiBase : Option String) : List Rewrite :=
  if stripTrail (jsOrEnv apiBase (jsOrEnv npApiBase "")) = "" then []
  else
    [⟨"/api/:path*",
      httpBase (stripTrail (jsOrEnv apiBase (jsOrEnv npApiBase ""))) ++ "/api/:path*"⟩,
     ⟨"/upstream/:path*",
      httpBase (stripTrail (jsOrEnv apiBase (jsOrEnv npApiBase ""))) ++ "/api/:path*"⟩]

/- ## Deduplicator (worker.md §6, spec §4.4) -/

/-- Modelled from the spec: a requirement as the deduplicator sees it
(worker.md §3): its chunk-local `id`, the index of the originating chunk
("chunk order"), its `page_refs` and its `text`.  Fields irrelevant to
dedup (category, is_mandatory, deadline, submission_format, source_quote)
are carried along by the survivor unchanged and are omitted. -/
structure Req where
  id : String
  chunk : ℕ
  pageRefs : List ℕ
  text : String
deriving DecidableEq

/-- The minimum page reference of a requirement (0 when `page_refs` is
empty), the primary sort key of the dedup processing order (spec §4.4). -/
def minRef (r : Req) : ℕ :=
  match r.pageRefs with
  | [] => 0
  | p :: ps => ps.foldl min p

/-- Modelled from the spec: the fixed deterministic processing order of
spec §4.4 — ascending by minimum page reference, then chunk order — made
total with content tiebreaks (text, page_refs, id), as the spec's
determinism and order-independence requirements demand a processing order
that does not depend on the incoming list order. -/
def reqKey (r : Req) : ℕ ×ₗ (ℕ ×ₗ (String ×ₗ (List ℕ ×ₗ String))) :=
  toLex (minRef r, toLex (r.chunk, toLex (r.text, toLex (r.pageRefs, r.id))))

/-- The processing order on requirements. -/
def reqLE (a b : Req) : Prop := reqKey a ≤ reqKey b

instance : DecidableRel reqLE :=
  fun a b => inferInstanceAs (Decidable (reqKey a ≤ reqKey b))

instance : IsTotal Req reqLE :=
  ⟨fun a b => le_total (reqKey a) (reqKey b)⟩

instance : IsTrans Req reqLE :=
  ⟨fun _ _ _ h1 h2 => le_trans h1 h2⟩

instance : IsAntisymm Req reqLE := by
  constructor
  intro a b h1 h2
  have hk : reqKey a = reqKey b := le_antisymm h1 h2
  cases a with
  | mk ia ca pa ta =>
    cases b with
    | mk ib cb pb tb =>
      simp only [reqKey, toLex_inj, Prod.mk.injEq] at hk
      obtain ⟨-, h3, h4, h5, h6⟩ := hk
      simp [h3, h4, h5, h6]

/-- Modelled from the spec: text normalization before embedding
(worker.md §5: lowercase, trim whitespace, remove leading bullet/number
markers). -/
def isBulletChar (c : Char) : Bool :=
  c == '-' || c == '*' || c == '•' || c == '.' || c == ')' || c == '(' ||
    c == ' ' || c.isDigit

/-- Trim leading and trailing whitespace, character-list based. -/
def trimStr (s : String) : String :=
  String.mk ((((s.data.dropWhile Char.isWhitespace).reverse).dropWhile
    Char.isWhitespace).reverse)

/-- Normalize a requirement text: case-fold, trim, strip leading
bullet/number markers (worker.md §5a). -/
def normalizeText (s : String) : String :=
  String.mk ((trimStr (toLowerStr s)).data.dropWhile isBulletChar)

/-- Modelled from the spec: the similarity test of worker.md §6.  The
embedding service plus cosine is abstracted as a similarity oracle `simv`
on normalized texts; two requirements are duplicates when the similarity
of their normalized texts reaches the threshold `t`. -/
def similar (simv : String → String → ℚ) (t : ℚ) (a b : Req) : Bool :=
  decide (t ≤ simv (normalizeText a.text) (normalizeText b.text))

/-- Does requirement `r` have a duplicate partner inside group `g`? -/
def touches (simB : Req → Req → Bool) (r : Req) (g : List Req) : Bool :=
  g.any (fun x => simB r x)

/-- Modelled from the spec: one union-find step (spec §4.4).  Inserting
`r` merges every existing group containing a duplicate of `r` with `r`
into a single group; untouched groups are kept. -/
def insertReq (simB : Req → Req → Bool) (gs : List (List Req)) (r : Req) :
    List (List Req) :=
  (gs.filter (fun g => !(touches simB r g))) ++
    [((gs.filter (fun g => touches simB r g)).foldr (fun g acc => g ++ acc) []) ++ [r]]

/-- The earliest member of `r :: g` in the processing order. -/
def leastReq (r : Req) (g : List Req) : Req :=
  g.foldl (fun a b => if reqLE a b then a else b) r

/-- The union of the `page_refs` of a group (first occurrence kept). -/
def mergeRefs (g : List Req) : List ℕ :=
  (g.foldr (fun r acc => r.pageRefs ++ acc) []).dedup

/-- The surviving requirement of one duplicate group: its earliest member
in the processing order, carrying the union of the group's `page_refs`
(spec §4.4). -/
def groupSurvivor : List Req → List Req
  | [] => []
  | r :: rest => [{ leastReq r rest with pageRefs := mergeRefs (r :: rest) }]

/-- Modelled from the spec: `dedup(all_requirements, threshold)`
(spec §4.4, worker.md §6): process the requirements in the fixed
deterministic order, union duplicate pairs into groups, and keep one
survivor per group with merged `page_refs`. -/
def dedup (simv : String → String → ℚ) (t : ℚ) (l : List Req) : List Req :=
  ((List.insertionSort reqLE l).foldl
    (insertReq (fun a b => similar simv t a b)) []).flatMap groupSurvivor

/-- A constant similarity oracle seeing every pair as unrelated. -/
def simZero : String → String → ℚ := fun _ _ => 0

/-- A constant similarity oracle seeing every pair as identical. -/
def simOne : String → String → ℚ := fun _ _ => 1

/-- A concrete requirement used in witnesses. -/
def reqA : Req := { id := "a", chunk := 0, pageRefs := [1], text := "alpha" }

/-- A concrete requirement used in witnesses. -/
def reqB : Req := { id := "b", chunk := 1, pageRefs := [2], text := "beta" }

/-- A concrete requirement used in witnesses. -/
def reqC : Req := { id := "c", chunk := 2, pageRefs := [3], text := "gamma" }

/- ## Schema validation (worker.md §3, Pydantic models) -/

/-- A raw extraction-result requirement before validation: every field may
be absent, mirroring an arbitrary JSON object projected onto the schema
fields (worker.md §4). -/
structure RawReq where
  id : Option String
  pageRefs : Option (List Int)
  text : Option String
  category : Option String
  isMandatory : Option Bool
  deadline : Option (Option String)
  submissionFormat : Option (Option String)
  sourceQuote : Option (Option String)
deriving DecidableEq

/-- A validated requirement record, with the exact fields of the Pydantic
`Requirement` model quoted in worker.md §3. -/
structure ReqRecord where
  id : String
  pageRefs : List Int
  text : String
  category : String
  isMandatory : Bool
  deadline : Option String
  submissionFormat : Option String
  sourceQuote : Option String
deriving DecidableEq

/-- The closed category set of the Requirement schema
(worker.md §3 comment and §4 extraction schema). -/
def categorySet : List String :=
  ["submission", "eligibility", "technical", "financial", "other"]

/-- Modelled from the spec: validation of one requirement against the
Pydantic `Requirement` model of worker.md §3.  The fields without
defaults (`id`, `text`, `category`, `is_mandatory`) are required; the
others fall back to their declared defaults.  `category` is typed as a
plain `str` in that model, so no membership test against the closed
category set is performed — exactly as the quoted class does. -/
def validateReq (raw : RawReq) : Option ReqRecord :=
  match raw.id, raw.text, raw.category, raw.isMandatory with
  | some i, some tx, some cat, some m =>
    some { id := i, pageRefs := raw.pageRefs.getD [], text := tx,
           category := cat, isMandatory := m,
           deadline := raw.deadline.getD none,
           submissionFormat := raw.submissionFormat.getD none,
           sourceQuote := raw.sourceQuote.getD none }
  | _, _, _, _ => none

/-- A requirement with every required field present but a category outside
the closed set. -/
def badCategoryReq : RawReq :=
  { id := some "r1", pageRefs := some [1],
    text := some "submit three copies", category := some "bogus",
    isMandatory := some true, deadline := none,
    submissionFormat := none, sourceQuote := none }

/- ## Job pipeline and status artifacts (worker.md §1, §7, §8) -/

/-- The artifacts of one job under `jobs/{job_id}/`, reduced to the ones
the claims are about; each is `none` until first written, then holds the
artifact bytes. -/
structure JobStore where
  pages : Option String
  merged : Option String
  checklist : Option String
  status : Option String
deriving DecidableEq

/-- The store of a freshly delivered job. -/
def emptyStore : JobStore := ⟨none, none, none, none⟩

/-- Byte serialization of one surviving requirement into the checklist
artifact. -/
def serializeReq (r : Req) : String :=
  r.id ++ "|" ++ toString r.chunk ++ "|" ++
    String.intercalate "," (r.pageRefs.map toString) ++ "|" ++ r.text

/-- Byte serialization of `checklist.json`. -/
def serializeChecklist (l : List Req) : String :=
  String.intercalate ";" (l.map serializeReq)

/-- Modelled from the spec: one delivery of a `process_tender` job
(worker.md §1, §8).  `oracle i` is the validated requirement list the
language-model service yields for chunk `i` on this delivery (`none`
when the chunk exhausts repair and fallback); it is an oracle because the
service is non-deterministic across deliveries.  Per worker.md §8 the
run OVERWRITES every artifact it produces ("Idempotent: reprocessing same
`job_id` overwrites artifacts") — no stage checks for an existing output
artifact.  An `InvalidWindow` error is fatal: the job is marked failed
and no artifact is written; a job in which no chunk succeeds is marked
failed ("no extractable requirements"), otherwise done. -/
def runPipeline (pages : List String) (W O : ℕ) (simv : String → String → ℚ)
    (t : ℚ) (oracle : ℕ → Option (List Req)) (s : JobStore) : JobStore :=
  match chunk pages.length W O with
  | .error _ => { s with status := some "failed" }
  | .ok cs =>
    { pages := some (String.intercalate "\n" pages),
      merged := some (serializeChecklist
        (dedup simv t ((((List.range cs.length).map oracle).filterMap id).flatten))),
      checklist := some (serializeChecklist
        (dedup simv t ((((List.range cs.length).map oracle).filterMap id).flatten))),
      status := some (if ((List.range cs.length).map oracle).any Option.isSome
        then "done" else "failed") }

/-- A model oracle whose every chunk yields requirement A. -/
def oracleA : ℕ → Option (List Req) := fun _ => some [reqA]

/-- A model oracle whose every chunk yields requirement B, as a second
delivery of the same job may. -/
def oracleB : ℕ → Option (List Req) := fun _ => some [reqB]

/-- Modelled from the spec: the sequence of status values published to
`status.json` over one delivery (spec §3, §5): `running` on job start and
the terminal value (`done` or `failed`) from the final store. -/
def statusTrace (pages : List String) (W O : ℕ) (simv : String → String → ℚ)
    (t : ℚ) (oracle : ℕ → Option (List Req)) : List String :=
  ["running", ((runPipeline pages W O simv t oracle emptyStore).status).getD "failed"]

/- ## Theorems: chunking -/

lemma Icc_inter_Icc_nat (a b c d : ℕ) :
    Finset.Icc a b ∩ Finset.Icc c d = Finset.Icc (max a c) (min b d) := by
  ext x
  simp only [Finset.mem_inter, Finset.mem_Icc, max_le_iff, le_min_iff]
  tauto

section ChunkLemmas

variable {P W O : ℕ}

lemma chunkLoop_cons (P W O fuel start : ℕ) (hsP : start ≤ P) (hfuel : P + 1 ≤ start + fuel) :
    ∃ t, chunkLoop fuel P W O start = (start, min (start + W - 1) P) :: t := by
  cases fuel with
  | zero => omega
  | succ fuel =>
    rw [chunkLoop]
    by_cases h : min (start + W - 1) P = P
    · rw [if_pos h]
      exact ⟨[], rfl⟩
    · rw [if_neg h]
      exact ⟨_, rfl⟩

lemma chunkLoop_not_min (start : ℕ) (h : ¬ min (start + W - 1) P = P) :
    start + W - 1 < P := by
  rcases le_or_lt P (start + W - 1) with h1 | h1
  · exact absurd (min_eq_right h1) h
  · exact h1

lemma chunkLoop_coverage (hO : O < W) :
    ∀ fuel start p, P + 1 ≤ start + fuel → start ≤ p → p ≤ P →
      ∃ c ∈ chunkLoop fuel P W O start, c.1 ≤ p ∧ p ≤ c.2 := by
  intro fuel
  induction fuel with
  | zero => intro start p h1 h2 h3; omega
  | succ fuel ih =>
    intro start p hfuel hsp hpP
    rw [chunkLoop]
    by_cases h : min (start + W - 1) P = P
    · rw [if_pos h, h]
      exact ⟨(start, P), List.mem_singleton_self _, hsp, hpP⟩
    · have hlt : start + W - 1 < P := chunkLoop_not_min start h
      rw [if_neg h, min_eq_left hlt.le]
      by_cases hp : p ≤ start + W - 1
      · exact ⟨(start, start + W - 1), List.mem_cons_self _ _, hsp, hp⟩
      · obtain ⟨c, hc, h1, h2⟩ :=
          ih (start + W - 1 + 1 - O) p (by omega) (by omega) hpP
        exact ⟨c, List.mem_cons_of_mem _ hc, h1, h2⟩

lemma chunkLoop_chain_overlap (hO : O < W) :
    ∀ fuel start, P + 1 ≤ start + fuel →
      List.Chain'
        (fun c d => ((Finset.Icc c.1 c.2) ∩ (Finset.Icc d.1 d.2)).card = O)
        (chunkLoop fuel P W O start) := by
  intro fuel
  induction fuel with
  | zero => intro start h; rw [chunkLoop]; exact List.chain'_nil
  | succ fuel ih =>
    intro start hfuel
    rw [chunkLoop]
    by_cases h : min (start + W - 1) P = P
    · rw [if_pos h]
      exact List.chain'_singleton _
    · have hlt : start + W - 1 < P := chunkLoop_not_min start h
      rw [if_neg h, min_eq_left hlt.le, List.chain'_cons']
      refine ⟨?_, ih (start + W - 1 + 1 - O) (by omega)⟩
      intro d hd
      obtain ⟨t, ht⟩ :=
        chunkLoop_cons P W O fuel (start + W - 1 + 1 - O) (by omega) (by omega)
      rw [ht] at hd
      simp only [List.head?_cons, Option.mem_def, Option.some.injEq] at hd
      subst hd
      have he2 : start + W ≤ min (start + W - 1 + 1 - O + W - 1) P :=
        le_min (by omega) (by omega)
      show ((Finset.Icc start (start + W - 1)) ∩
        (Finset.Icc (start + W - 1 + 1 - O) (min (start + W - 1 + 1 - O + W - 1) P))).card = O
      rw [Icc_inter_Icc_nat,
        max_eq_right (by omega : start ≤ start + W - 1 + 1 - O),
        min_eq_left (by omega : start + W - 1 ≤ min (start + W - 1 + 1 - O + W - 1) P),
        Nat.card_Icc]
      omega

lemma chunkLoop_chain_lt (hO : O < W) :
    ∀ fuel start, P + 1 ≤ start + fuel →
      List.Chain' (fun c d => c.1 < d.1) (chunkLoop fuel P W O start) := by
  intro fuel
  induction fuel with
  | zero => intro start h; rw [chunkLoop]; exact List.chain'_nil
  | succ fuel ih =>
    intro start hfuel
    rw [chunkLoop]
    by_cases h : min (start + W - 1) P = P
    · rw [if_pos h]
      exact List.chain'_singleton _
    · have hlt : start + W - 1 < P := chunkLoop_not_min start h
      rw [if_neg h, min_eq_left hlt.le, List.chain'_cons']
      refine ⟨?_, ih (start + W - 1 + 1 - O) (by omega)⟩
      intro d hd
      obtain ⟨t, ht⟩ :=
        chunkLoop_cons P W O fuel (start + W - 1 + 1 - O) (by omega) (by omega)
      rw [ht] at hd
      simp only [List.head?_cons, Option.mem_def, Option.some.injEq] at hd
      subst hd
      show start < start + W - 1 + 1 - O
      omega

lemma chunkLoop_width_le (hW : 1 ≤ W) :
    ∀ fuel start, ∀ c ∈ chunkLoop fuel P W O start, c.2 + 1 - c.1 ≤ W := by
  intro fuel
  induction fuel with
  | zero =>
    intro start c hc
    rw [chunkLoop] at hc
    exact absurd hc (List.not_mem_nil c)
  | succ fuel ih =>
    intro start c hc
    rw [chunkLoop] at hc
    by_cases h : min (start + W - 1) P = P
    · rw [if_pos h] at hc
      obtain rfl := List.mem_singleton.mp hc
      show min (start + W - 1) P + 1 - start ≤ W
      omega
    · rw [if_neg h] at hc
      rcases List.mem_cons.mp hc with hc | hc
      · subst hc
        show min (start + W - 1) P + 1 - start ≤ W
        omega
      · exact ih _ c hc

lemma chunkLoop_dropLast_width (hO : O < W) :
    ∀ fuel start, P + 1 ≤ start + fuel →
      ∀ c ∈ (chunkLoop fuel P W O start).dropLast, c.2 + 1 - c.1 = W := by
  intro fuel
  induction fuel with
  | zero =>
    intro start h c hc
    rw [chunkLoop] at hc
    simp at hc
  | succ fuel ih =>
    intro start hfuel c hc
    rw [chunkLoop] at hc
    by_cases h : min (start + W - 1) P = P
    · rw [if_pos h] at hc
      simp at hc
    · have hlt : start + W - 1 < P := chunkLoop_not_min start h
      rw [if_neg h, min_eq_left hlt.le] at hc
      obtain ⟨t, ht⟩ :=
        chunkLoop_cons P W O fuel (start + W - 1 + 1 - O) (by omega) (by omega)
      rw [ht, List.dropLast_cons₂] at hc
      rcases List.mem_cons.mp hc with hc | hc
      · subst hc
        show start + W - 1 + 1 - start = W
        omega
      · rw [← ht] at hc
        exact ih (start + W - 1 + 1 - O) (by omega) c hc

end ChunkLemmas

/-- C1: for every page count `P ≥ 1`, window `W ≥ 1` and overlap `O < W`,
the chunking algorithm succeeds and yields chunks such that every page
`1..P` lies in at least one chunk, every pair of adjacent chunks shares
exactly `O` pages, and every chunk spans at most `W` pages, with every
non-final chunk spanning exactly `W` pages (only the final chunk may be
truncated). -/
theorem chunk_covers_and_overlaps (P W O : ℕ) (_hP : 1 ≤ P) (hW : 1 ≤ W) (hO : O < W) :
    ∃ cs, chunk P W O = Except.ok cs ∧
      (∀ p, 1 ≤ p → p ≤ P → ∃ c ∈ cs, c.1 ≤ p ∧ p ≤ c.2) ∧
      List.Chain'
        (fun c d => ((Finset.Icc c.1 c.2) ∩ (Finset.Icc d.1 d.2)).card = O) cs ∧
      (∀ c ∈ cs.dropLast, c.2 + 1 - c.1 = W) ∧
      (∀ c ∈ cs, c.2 + 1 - c.1 ≤ W) := by
  refine ⟨chunkLoop (P + 1) P W O 1, ?_, ?_, ?_, ?_, ?_⟩
  · rw [chunk, if_neg (by omega : ¬(W = 0 ∨ W ≤ O))]
  · intro p h1 h2
    exact chunkLoop_coverage hO (P + 1) 1 p (by omega) h1 h2
  · exact chunkLoop_chain_overlap hO (P + 1) 1 (by omega)
  · exact chunkLoop_dropLast_width hO (P + 1) 1 (by omega)
  · exact chunkLoop_width_le hW (P + 1) 1

/-- Witness for C1 at the concrete input `P = 12`, `W = 5`, `O = 1`. -/
theorem chunk_covers_and_overlaps_witness :
    (1 ≤ 12 ∧ 1 ≤ 5 ∧ 1 < 5) ∧
    ∃ cs, chunk 12 5 1 = Except.ok cs ∧
      (∀ p, 1 ≤ p → p ≤ 12 → ∃ c ∈ cs, c.1 ≤ p ∧ p ≤ c.2) ∧
      List.Chain'
        (fun c d => ((Finset.Icc c.1 c.2) ∩ (Finset.Icc d.1 d.2)).card = 1) cs ∧
      (∀ c ∈ cs.dropLast, c.2 + 1 - c.1 = 5) ∧
      (∀ c ∈ cs, c.2 + 1 - c.1 ≤ 5) :=
  ⟨by omega, chunk_covers_and_overlaps 12 5 1 (by omega) (by omega) (by omega)⟩

/-- C5: a 12-page document with window 5 and overlap 1 is chunked into
exactly the three page ranges `[1-5]`, `[5-9]`, `[9-12]`, in that order. -/
theorem chunk_twelve_five_one :
    chunk 12 5 1 = Except.ok [(1, 5), (5, 9), (9, 12)] := rfl

/-- C6: `chunk` fails with `InvalidWindow` exactly when `overlap >= window`
or `window <= 0`; for every `W ≥ 1` and `O < W` it succeeds, and any
successful result is an ordered sequence of chunks (strictly ascending
`page_start`). -/
theorem chunk_invalid_window (P W O : ℕ) :
    (chunk P W O = Except.error ChunkError.invalidWindow ↔ (W = 0 ∨ W ≤ O)) ∧
    (∀ cs, chunk P W O = Except.ok cs →
      List.Chain' (fun c d => c.1 < d.1) cs) := by
  constructor
  · constructor
    · intro h
      by_contra hbad
      rw [chunk, if_neg hbad] at h
      exact Except.noConfusion h
    · intro h
      rw [chunk, if_pos h]
  · intro cs h
    by_cases hbad : W = 0 ∨ W ≤ O
    · rw [chunk, if_pos hbad] at h
      exact Except.noConfusion h
    · rw [chunk, if_neg hbad] at h
      have hO : O < W := by omega
      have := chunkLoop_chain_lt (P := P) hO (P + 1) 1 (by omega)
      rw [Except.ok.injEq] at h
      rw [← h]
      exact this

/-- Witness for C6: the error side at `W = 0`, and the ordered-success side
at `P = 12`, `W = 5`, `O = 1`. -/
theorem chunk_invalid_window_witness :
    chunk 12 0 0 = Except.error ChunkError.invalidWindow ∧
    List.Chain' (fun c d => c.1 < d.1) [((1 : ℕ), (5 : ℕ)), (5, 9), (9, 12)] :=
  ⟨(chunk_invalid_window 12 0 0).1.mpr (Or.inl rfl),
   (chunk_invalid_window 12 5 1).2 [(1, 5), (5, 9), (9, 12)] rfl⟩

/-- C9: `statusIndex` always returns an index in `0..4`, a valid index into
the five-step `ORDER` array; every string whose uppercased form is not one
of DRAFT, UPLOADING, PROCESSING, READY, FAILED (the empty string included)
is mapped to 0, the active DRAFT step. -/
theorem statusIndex_range (s : String) :
    (0 ≤ statusIndex s ∧ statusIndex s ≤ 4) ∧
    (toUpperStr s ∉ ORDER → statusIndex s = 0) := by
  constructor
  · cases h : ORDER.findIdx? (fun y => y == toUpperStr s) with
    | none =>
      have hj : jsIndexOf ORDER (toUpperStr s) = -1 := by
        rw [jsIndexOf, h]
      rw [statusIndex, hj]
      norm_num
    | some i =>
      have hj : jsIndexOf ORDER (toUpperStr s) = (i : Int) := by
        rw [jsIndexOf, h]
      have hi : i < ORDER.length := (List.findIdx?_eq_some_iff_findIdx_eq.mp h).1
      have h5 : ORDER.length = 5 := rfl
      rw [h5] at hi
      rw [statusIndex, hj, if_pos (Int.ofNat_nonneg i)]
      omega
  · intro hn
    have hnone : ORDER.findIdx? (fun y => y == toUpperStr s) = none := by
      rw [List.findIdx?_eq_none_iff]
      intro x hx
      rw [beq_eq_false_iff_ne]
      intro he
      exact hn (he ▸ hx)
    have hj : jsIndexOf ORDER (toUpperStr s) = -1 := by
      rw [jsIndexOf, hnone]
    rw [statusIndex, hj]
    norm_num

/-- Witness for C9 at the unrecognized status `"bogus"`. -/
theorem statusIndex_range_witness :
    (toUpperStr "bogus" ∉ ORDER) ∧ statusIndex "bogus" = 0 ∧ 0 ≤ statusIndex "bogus" :=
  ⟨by decide, (statusIndex_range "bogus").2 (by decide), (statusIndex_range "bogus").1.1⟩

/-- C10, counterexample: with `API_BASE = "/"` and
`NEXT_PUBLIC_API_BASE = "a"`, `rewrites()` returns the empty list although
`NEXT_PUBLIC_API_BASE` contains a character other than trailing slashes,
so "empty exactly when neither env var contains a character other than
trailing slashes" is false: the code never consults
`NEXT_PUBLIC_API_BASE` when `API_BASE` is a non-empty (truthy) string. -/
theorem rewrites_counterexample :
    rewrites (some "/") (some "a") = [] ∧
    ¬ (stripTrail ((some "/").getD "") = "" ∧ stripTrail ((some "a").getD "") = "") := by
  constructor
  · decide
  · decide

/-- C10, amended: `rewrites()` returns the empty list exactly when the
selected environment value — `API_BASE` if set and non-empty, else
`NEXT_PUBLIC_API_BASE` if set and non-empty, else the empty string —
consists only of trailing slashes; otherwise it returns exactly the two
rules mapping `/api/:path*` and `/upstream/:path*` to `${base}/api/:path*`,
where `base` is that value with trailing slashes stripped and with
`https://` prepended when no `http(s)://` scheme is present. -/
theorem rewrites_spec (a b : Option String) :
    (rewrites a b = [] ↔ stripTrail (jsOrEnv a (jsOrEnv b "")) = "") ∧
    (stripTrail (jsOrEnv a (jsOrEnv b "")) ≠ "" →
      rewrites a b =
        [⟨"/api/:path*",
          httpBase (stripTrail (jsOrEnv a (jsOrEnv b ""))) ++ "/api/:path*"⟩,
         ⟨"/upstream/:path*",
          httpBase (stripTrail (jsOrEnv a (jsOrEnv b ""))) ++ "/api/:path*"⟩]) := by
  constructor
  · constructor
    · intro h
      by_contra hne
      rw [rewrites, if_neg hne] at h
      exact List.noConfusion h
    · intro h
      rw [rewrites, if_pos h]
  · intro hne
    rw [rewrites, if_neg hne]

/-- Witness for C10 at `API_BASE = "example.com"`. -/
theorem rewrites_spec_witness :
    stripTrail (jsOrEnv (some "example.com") (jsOrEnv none "")) ≠ "" ∧
    rewrites (some "example.com") none =
      [⟨"/api/:path*", "https://example.com/api/:path*"⟩,
       ⟨"/upstream/:path*", "https://example.com/api/:path*"⟩] := by
  refine ⟨by decide, ?_⟩
  have h := (rewrites_spec (some "example.com") none).2 (by decide)
  rw [h]
  decide

/- ## Theorems: deduplication -/

lemma insertionSort_eq_of_perm {l l' : List Req} (h : l.Perm l') :
    List.insertionSort reqLE l = List.insertionSort reqLE l' :=
  List.eq_of_perm_of_sorted
    ((List.perm_insertionSort reqLE l).trans
      (h.trans (List.perm_insertionSort reqLE l').symm))
    (List.sorted_insertionSort reqLE l)
    (List.sorted_insertionSort reqLE l')

/-- C2: dedup is order-independent — for every similarity oracle, every
threshold and every pair of input lists that are permutations of each
other, dedup returns the same output (hence the same surviving set by
content and, for each survivor, the same merged `page_refs`). -/
theorem dedup_perm_invariant (simv : String → String → ℚ) (t : ℚ)
    (l l' : List Req) (h : l.Perm l') :
    dedup simv t l = dedup simv t l' := by
  rw [dedup, dedup, insertionSort_eq_of_perm h]

/-- Witness for C2: the two-element list `[reqA, reqB]` against its
transposition. -/
theorem dedup_perm_invariant_witness :
    ([reqA, reqB].Perm [reqB, reqA]) ∧
    dedup simZero 1 [reqA, reqB] = dedup simZero 1 [reqB, reqA] :=
  ⟨List.Perm.swap reqB reqA [],
   dedup_perm_invariant simZero 1 [reqA, reqB] [reqB, reqA]
     (List.Perm.swap reqB reqA [])⟩

lemma similar_symm (simv : String → String → ℚ) (t : ℚ)
    (hsym : ∀ x y, simv x y = simv y x) (a b : Req) :
    similar simv t a b = similar simv t b a := by
  rw [similar, similar, hsym]

lemma perm_two {α : Type} [DecidableEq α] {l : List α} {a b : α}
    (h : l.Perm [a, b]) : l = [a, b] ∨ l = [b, a] := by
  have hlen : l.length = 2 := by rw [h.length_eq]; rfl
  rcases l with _ | ⟨x, _ | ⟨y, _ | ⟨z, tl⟩⟩⟩
  · simp at hlen
  · simp at hlen
  · have hx : x ∈ [a, b] := h.subset (List.mem_cons_self x [y])
    rcases List.mem_cons.mp hx with rfl | hx2
    · left
      have h2 : [y] = [b] := List.perm_singleton.mp h.cons_inv
      rw [List.cons.injEq] at h2
      rw [h2.1]
    · right
      have hxb : x = b := List.mem_singleton.mp hx2
      subst hxb
      have h3 : ([x, y] : List α).Perm [x, a] :=
        h.trans (List.Perm.swap x a [])
      have h2 : [y] = [a] := List.perm_singleton.mp h3.cons_inv
      rw [List.cons.injEq] at h2
      rw [h2.1]
  · simp at hlen

lemma perm_three {α : Type} [DecidableEq α] {l : List α} {a b c : α}
    (h : l.Perm [a, b, c]) :
    l = [a, b, c] ∨ l = [a, c, b] ∨ l = [b, a, c] ∨ l = [b, c, a] ∨
      l = [c, a, b] ∨ l = [c, b, a] := by
  have hlen : l.length = 3 := by rw [h.length_eq]; rfl
  rcases l with _ | ⟨x, _ | ⟨y, _ | ⟨z, _ | ⟨w, tl⟩⟩⟩⟩
  · simp at hlen
  · simp at hlen
  · simp at hlen
  · have hx : x ∈ [a, b, c] := h.subset (List.mem_cons_self x [y, z])
    rcases List.mem_cons.mp hx with rfl | hx2
    · rcases perm_two h.cons_inv with h2 | h2
      · left
        rw [List.cons.injEq]
        exact ⟨rfl, h2⟩
      · right; left
        rw [List.cons.injEq]
        exact ⟨rfl, h2⟩
    · rcases List.mem_cons.mp hx2 with rfl | hx3
      · have h3 : ([x, y, z] : List α).Perm [x, a, c] :=
          h.trans (List.Perm.swap x a [c])
        rcases perm_two h3.cons_inv with h2 | h2
        · right; right; left
          rw [List.cons.injEq]
          exact ⟨rfl, h2⟩
        · right; right; right; left
          rw [List.cons.injEq]
          exact ⟨rfl, h2⟩
      · have hxc : x = c := List.mem_singleton.mp hx3
        subst hxc
        have hstep : ([a, b, x] : List α).Perm [x, a, b] :=
          (List.Perm.cons a (List.Perm.swap x b [])).trans
            (List.Perm.swap x a [b])
        have h3 : ([x, y, z] : List α).Perm [x, a, b] := h.trans hstep
        rcases perm_two h3.cons_inv with h2 | h2
        · right; right; right; right; left
          rw [List.cons.injEq]
          exact ⟨rfl, h2⟩
        · right; right; right; right; right
          rw [List.cons.injEq]
          exact ⟨rfl, h2⟩
  · simp at hlen

lemma touches_singleton (simB : Req → Req → Bool) (r x : Req) :
    touches simB r [x] = simB r x := by
  simp [touches]

lemma touches_pair (simB : Req → Req → Bool) (r x y : Req) :
    touches simB r [x, y] = (simB r x || simB r y) := by
  simp [touches]

lemma insertReq_nil (simB : Req → Req → Bool) (r : Req) :
    insertReq simB [] r = [[r]] := rfl

lemma insertReq_s1_true (simB : Req → Req → Bool) (r x : Req)
    (h : simB r x = true) : insertReq simB [[x]] r = [[x, r]] := by
  simp [insertReq, touches, h]

lemma insertReq_s1_false (simB : Req → Req → Bool) (r x : Req)
    (h : simB r x = false) : insertReq simB [[x]] r = [[x], [r]] := by
  simp [insertReq, touches, h]

lemma insertReq_p_true (simB : Req → Req → Bool) (r x y : Req)
    (h : (simB r x || simB r y) = true) :
    insertReq simB [[x, y]] r = [[x, y, r]] := by
  simp [insertReq, touches, h]

lemma insertReq_ss_tt (simB : Req → Req → Bool) (r x y : Req)
    (hx : simB r x = true) (hy : simB r y = true) :
    insertReq simB [[x], [y]] r = [[x, y, r]] := by
  simp [insertReq, touches, hx, hy]

/-- C3: dedup is transitive — whenever the similarity oracle (symmetric,
as cosine similarity is) rates A~B and B~C at or above the threshold,
dedup merges A, B and C into a single duplicate group with one survivor,
whatever the similarity of A and C (in particular when it is below the
threshold). -/
theorem dedup_transitive_merge (simv : String → String → ℚ) (t : ℚ)
    (A B C : Req) (hsym : ∀ x y, simv x y = simv y x)
    (hAB : similar simv t A B = true) (hBC : similar simv t B C = true) :
    (dedup simv t [A, B, C]).length = 1 := by
  have hBA : similar simv t B A = true :=
    (similar_symm simv t hsym B A).trans hAB
  have hCB : similar simv t C B = true :=
    (similar_symm simv t hsym C B).trans hBC
  have hperm := List.perm_insertionSort reqLE [A, B, C]
  rw [dedup]
  rcases perm_three hperm with hs | hs | hs | hs | hs | hs <;> rw [hs] <;>
    simp only [List.foldl_cons, List.foldl_nil, insertReq_nil]
  · rw [insertReq_s1_true _ _ _ hBA,
      insertReq_p_true _ _ _ _ (by simp [hCB])]
    simp [groupSurvivor]
  · by_cases hAC : similar simv t A C = true
    · have hCA : similar simv t C A = true :=
        (similar_symm simv t hsym C A).trans hAC
      rw [insertReq_s1_true _ _ _ hCA,
        insertReq_p_true _ _ _ _ (by simp [hBA])]
      simp [groupSurvivor]
    · have hACf : similar simv t A C = false := by
        cases hv : similar simv t A C with
        | true => exact absurd hv hAC
        | false => rfl
      have hCAf : similar simv t C A = false :=
        (similar_symm simv t hsym C A).trans hACf
      rw [insertReq_s1_false _ _ _ hCAf,
        insertReq_ss_tt _ _ _ _ hBA hBC]
      simp [groupSurvivor]
  · rw [insertReq_s1_true _ _ _ hAB,
      insertReq_p_true _ _ _ _ (by simp [hCB])]
    simp [groupSurvivor]
  · rw [insertReq_s1_true _ _ _ hCB,
      insertReq_p_true _ _ _ _ (by simp [hAB])]
    simp [groupSurvivor]
  · by_cases hAC : similar simv t A C = true
    · rw [insertReq_s1_true _ _ _ hAC,
        insertReq_p_true _ _ _ _ (by simp [hBC])]
      simp [groupSurvivor]
    · have hACf : similar simv t A C = false := by
        cases hv : similar simv t A C with
        | true => exact absurd hv hAC
        | false => rfl
      rw [insertReq_s1_false _ _ _ hACf,
        insertReq_ss_tt _ _ _ _ hBC hBA]
      simp [groupSurvivor]
  · rw [insertReq_s1_true _ _ _ hBC,
      insertReq_p_true _ _ _ _ (by simp [hAB])]
    simp [groupSurvivor]

/-- Witness for C3: the all-similar oracle at threshold 1 on the three
concrete requirements. -/
theorem dedup_transitive_merge_witness :
    (∀ x y, simOne x y = simOne y x) ∧
    similar simOne 1 reqA reqB = true ∧ similar simOne 1 reqB reqC = true ∧
    (dedup simOne 1 [reqA, reqB, reqC]).length = 1 :=
  ⟨fun _ _ => rfl, by decide, by decide,
   dedup_transitive_merge simOne 1 reqA reqB reqC (fun _ _ => rfl)
     (by decide) (by decide)⟩

/- ## Theorems: schema validation, idempotence, status values -/

/-- C7: validation against the Pydantic `Requirement` model of worker.md
§3 rejects a requirement whose required field `category` is missing, but
ACCEPTS a requirement whose `category` lies outside the closed set
{submission, eligibility, technical, financial, other}: the model types
`category` as a plain `str`, contradicting the schema of worker.md §4.
Evaluated at the failing input `badCategoryReq`. -/
theorem validateReq_schema :
    validateReq badCategoryReq =
      some { id := "r1", pageRefs := [1], text := "submit three copies",
             category := "bogus", isMandatory := true, deadline := none,
             submissionFormat := none, sourceQuote := none } ∧
    "bogus" ∉ categorySet ∧
    validateReq { badCategoryReq with category := none } = none := by
  refine ⟨by decide, by decide, by decide⟩

/-- C4, counterexample: re-delivering the same job with unchanged inputs
but different model-service responses (the service is non-deterministic)
overwrites `checklist.json` with different bytes, so the re-run is not
byte-identical. -/
theorem rerun_not_byte_identical :
    (runPipeline ["p"] 1 0 simZero 1 oracleB
        (runPipeline ["p"] 1 0 simZero 1 oracleA emptyStore)).checklist
      ≠ (runPipeline ["p"] 1 0 simZero 1 oracleA emptyStore).checklist := by
  decide

/-- C4, amended: re-running the full pipeline on the same job with
unchanged inputs AND unchanged model-service responses produces a
byte-identical `checklist.json`, whatever store state the previous run
left behind: every artifact is recomputed from the inputs and responses
alone and overwritten. -/
theorem rerun_same_responses_byte_identical (pages : List String) (W O : ℕ)
    (simv : String → String → ℚ) (t : ℚ) (oracle : ℕ → Option (List Req))
    (s : JobStore) :
    (runPipeline pages W O simv t oracle
        (runPipeline pages W O simv t oracle s)).checklist
      = (runPipeline pages W O simv t oracle s).checklist := by
  cases h : chunk pages.length W O with
  | error e => simp [runPipeline, h]
  | ok cs => simp [runPipeline, h]

/-- C8: every status value published to `status.json` — on job start, on
success, on failure — is one of exactly `running`, `done`, `failed`. -/
theorem statusTrace_closed_set (pages : List String) (W O : ℕ)
    (simv : String → String → ℚ) (t : ℚ) (oracle : ℕ → Option (List Req))
    (x : String) (hx : x ∈ statusTrace pages W O simv t oracle) :
    x = "running" ∨ x = "done" ∨ x = "failed" := by
  rw [statusTrace] at hx
  rcases List.mem_cons.mp hx with rfl | hx2
  · left; rfl
  · have hx3 := List.mem_singleton.mp hx2
    subst hx3
    cases h : chunk pages.length W O with
    | error e =>
      simp [runPipeline, h]
    | ok cs =>
      simp only [runPipeline, h]
      split_ifs with hc
      · right; left; rfl
      · right; right; rfl

/-- Witness for C8: a one-page job whose single chunk exhausts extraction
(the oracle yields nothing), so the trace is `running` then `failed`. -/
theorem statusTrace_closed_set_witness :
    "running" ∈ statusTrace ["p"] 1 0 simZero 1 (fun _ => none) ∧
    ("running" = "running" ∨ "running" = "done" ∨ "running" = "failed") :=
  ⟨by decide,
   statusTrace_closed_set ["p"] 1 0 simZero 1 (fun _ => none) "running" (by decide)⟩
